import Mathlib

/-!
Verification of the price-tracker core (`src/price_watcher.py`).

Strings are modelled as `List Char`, numeric values as `ℚ`.

Shallow embedding layout:
* `parse_price` embeds the Python function `parse_price` (the normalizer),
  decomposed into the cleaning stage (`cleanText`), the decimal-separator
  disambiguation stage (`disambiguate`) and the final conversion
  (`pyFloat`, a model of Python `float()` restricted to the alphabet that
  can reach it here: digits, dots and whitespace).
* `fetch_price` embeds the Python function `fetch_price`, with the page
  fetch and the selector query as an abstract capability (`Env`).
* `run_once` embeds the Python function `run_once` as an event trace
  (fetch calls, recorded observations, printed lines) plus an exit code.

Digits are ASCII digits; whitespace is the ASCII whitespace set plus the
no-break space, a representative fragment of the Unicode classes Python
uses for `\d`, `\s`, `str.strip` and `float()`.
-/

namespace PriceWatcher

/-- Whitespace predicate: ASCII whitespace plus the no-break space.
Models the character class `\s` of the Python regex and the whitespace
stripped by `str.strip` and by `float()`. -/
def isWs (c : Char) : Bool :=
  c == ' ' || c == '\t' || c == '\n' || c == '\r' || c == '\x0b' ||
  c == '\x0c' || c == '\u00A0'

/-- Characters kept by `re.sub(r"[^\d,.\s]", "", s)`: digits, comma,
period, whitespace. -/
def keepChar (c : Char) : Bool :=
  c.isDigit || c == ',' || c == '.' || isWs c

/-- `str.strip()`: remove leading and trailing whitespace. -/
def stripWs (l : List Char) : List Char :=
  ((l.dropWhile isWs).reverse.dropWhile isWs).reverse

/-- `s.replace(" ", "")`: remove every space character (only U+0020). -/
def delSpace (l : List Char) : List Char :=
  l.filter (fun c => c != ' ')

/-- Numeric value of a digit string (most significant first). -/
def natOfDigits (l : List Char) : Nat :=
  l.foldl (fun a c => 10 * a + (c.toNat - 48)) 0

/-- Number of characters after the first `.` (the decimal point, when the
string has at most one dot); 0 when there is no dot. -/
def fracLen : List Char → Nat
  | [] => 0
  | c :: r => if c == '.' then r.length else fracLen r

/-- A stripped string is accepted by Python `float()` (restricted to the
alphabet reachable in this program: digits, dots, whitespace; no signs,
exponents or underscores can survive the cleaning stage) iff it is
nonempty, made of digits and dots only, has at most one dot and at least
one digit. -/
def floatValid (t : List Char) : Bool :=
  !t.isEmpty && t.all (fun c => c.isDigit || c == '.') &&
  decide (t.count '.' ≤ 1) && t.any (fun c => c.isDigit)

/-- Value denoted by a valid digits-and-dot string. -/
def floatVal (t : List Char) : ℚ :=
  mkRat (natOfDigits (t.filter (fun c => c.isDigit))) (10 ^ fracLen t)

/-- Model of Python `float(s)` on the reachable alphabet: strip
surrounding whitespace, then convert, returning `none` on failure. -/
def pyFloat (l : List Char) : Option ℚ :=
  let t := stripWs l
  if floatValid t then some (floatVal t) else none

/-- Python `s.rfind(c)`: index of the last occurrence, `-1` if absent. -/
def rfind (c : Char) : List Char → Int
  | [] => -1
  | x :: t =>
    let r := rfind c t
    if 0 ≤ r then r + 1 else if x == c then 0 else -1

/-- Python `s.split(sep)` for a one-character separator. -/
def splitOnSep (sep : Char) : List Char → List (List Char)
  | [] => [[]]
  | c :: t =>
    let r := splitOnSep sep t
    if c == sep then [] :: r else (c :: r.headD []) :: r.tail

/-- Python `"".join(parts[:-1]) + "." + parts[-1]` where
`parts = s.split(sep)`: delete every occurrence of `sep` but the last,
and turn the last one into a decimal point. -/
def joinButLast (sep : Char) (s : List Char) : List Char :=
  let parts := splitOnSep sep s
  parts.dropLast.flatten ++ '.' :: parts.getLastD []

/-- Python `s.replace(",", ".")` on characters. -/
def swapCommaDot (c : Char) : Char :=
  if c == ',' then '.' else c

/-- Decimal-separator disambiguation: lines 53-77 of
`src/price_watcher.py` (the branch structure is copied from the source). -/
def disambiguate (s : List Char) : List Char :=
  if ',' ∈ s ∧ '.' ∈ s then
    if rfind '.' s < rfind ',' s then
      (s.filter (fun c => c != '.')).map swapCommaDot
    else
      s.filter (fun c => c != ',')
  else
    let sA := if ',' ∈ s ∧ '.' ∉ s then
        (if 1 < s.count ',' then joinButLast ',' s else s.map swapCommaDot)
      else s
    if '.' ∈ sA then
      (if 1 < sA.count '.' then joinButLast '.' sA else sA)
    else sA

/-- Cleaning stage of `parse_price`:
`s = text.strip()`, `s = re.sub(r"[^\d,.\s]", "", s).strip()`,
`s = s.replace(" ", "")`. -/
def cleanText (text : List Char) : List Char :=
  delSpace (stripWs ((stripWs text).filter keepChar))

/-- The normalizer `parse_price` on a (non-`None`) string. -/
def parse_price (text : List Char) : Option ℚ :=
  pyFloat (disambiguate (cleanText text))

/-- `parse_price` including the `if text is None: return None` guard. -/
def parse_price_opt : Option (List Char) → Option ℚ
  | none => none
  | some text => parse_price text


/-! ## The check-record-alert pipeline -/

/-- Per-check status. `fetchError` carries the cause text, modelling the
Python status string `f"fetch_error: {e}"`. -/
inductive Status where
  | ok
  | fetchError (msg : List Char)
  | selectorNotFound
  | parseFailed
  deriving DecidableEq

/-- One configured product (an entry of `products.yaml`).
`url` and `selector` are required (`p["url"]`, `p["selector"]`);
`name` and `target_price` are optional. -/
structure Product where
  name : Option (List Char)
  url : List Char
  selector : List Char
  target_price : Option ℚ
  deriving DecidableEq

/-- `p.get("name") or p.get("url")`: Python `or` falls through on a
missing name and on an empty-string name. -/
def effName (p : Product) : List Char :=
  match p.name with
  | none => p.url
  | some n => if n = [] then p.url else n

/-- One row of the `price_history` table, minus the environmental
`timestamp` and the autogenerated id. -/
structure Obs where
  name : List Char
  url : List Char
  price : Option ℚ
  target : Option ℚ
  selector : List Char
  status : Status
  deriving DecidableEq

/-- Configuration: the `products` list of `products.yaml` (a missing
`products` key loads as the empty list). -/
structure Cfg where
  products : List Product
  deriving DecidableEq

/-- External capabilities: page fetching (`requests.get` + status check,
an error carries the cause text) and the selector query
(`soup.select_one(selector)` followed by `get_text`). -/
structure Env where
  fetch : List Char → Except (List Char) (List Char)
  select : List Char → List Char → Option (List Char)

/-- `fetch_price(url, selector)` of `src/price_watcher.py`:
fetch, query the selector, normalize the matched text.
`stripWs` models `get_text(strip=True)`. -/
def fetch_price (env : Env) (url selector : List Char) : Option ℚ × Status :=
  match env.fetch url with
  | Except.error e => (none, Status.fetchError e)
  | Except.ok body =>
    match env.select body selector with
    | none => (none, Status.selectorNotFound)
    | some txt =>
      match parse_price (stripWs txt) with
      | none => (none, Status.parseFailed)
      | some price => (some price, Status.ok)

/-- Observable steps of `run_once`: the fetch, the database insert, and
each printed line, in program order. -/
inductive Event where
  | ensureDb
  | fetchCall (url : List Char)
  | recordObs (o : Obs)
  | printErr (name : List Char) (st : Status) (url : List Char)
  | printInfo (name : List Char) (price : Option ℚ) (target : Option ℚ) (url : List Char)
  | printAlert (price : ℚ) (target : ℚ)
  | printNoAlerts
  | printConfigMissing
  | printNoProducts
  deriving DecidableEq

/-- The check of one product inside the loop of `run_once`. -/
def checkProduct (env : Env) (p : Product) : Option ℚ × Status :=
  fetch_price env p.url p.selector

/-- The observation `record(name, url, price, target, selector, status)`
inserts for a product. -/
def mkObs (env : Env) (p : Product) : Obs :=
  { name := effName p
    url := p.url
    price := (checkProduct env p).1
    target := p.target_price
    selector := p.selector
    status := (checkProduct env p).2 }

/-- The alert condition of `run_once`:
`target is not None and price is not None and price <= float(target)`,
only reachable when the status is `ok`. -/
def alertP (env : Env) (p : Product) : Bool :=
  (checkProduct env p).2 = Status.ok &&
  match p.target_price, (checkProduct env p).1 with
  | some t, some q => q ≤ t
  | _, _ => false

/-- Event trace of one iteration of the product loop of `run_once`:
fetch, record unconditionally, then either the error line or the info
line plus the alert line. -/
def productTrace (env : Env) (p : Product) : List Event :=
  Event.fetchCall p.url ::
  Event.recordObs (mkObs env p) ::
  (if (checkProduct env p).2 ≠ Status.ok then
    [Event.printErr (effName p) (checkProduct env p).2 p.url]
  else
    Event.printInfo (effName p) (checkProduct env p).1 p.target_price p.url ::
    (if alertP env p then
      [Event.printAlert ((checkProduct env p).1.getD 0) (p.target_price.getD 0)]
    else []))

/-- The product loop of `run_once`, unrolled structurally: the trace in
program order, and the aggregate `any_alerts` flag accumulated as a
monotonic OR. -/
def runLoop (env : Env) : List Product → List Event × Bool
  | [] => ([], false)
  | p :: ps =>
    let rest := runLoop env ps
    (productTrace env p ++ rest.1, alertP env p || rest.2)

/-- `run_once` of `src/price_watcher.py` as a trace of events and the
process exit code. `cfg = none` models a missing `products.yaml`;
an empty `products` list (also covering a missing `products` key or an
empty yaml file) exits with code 1 before the loop. -/
def run_once (env : Env) (cfg : Option Cfg) : List Event × Nat :=
  match cfg with
  | none => ([Event.ensureDb, Event.printConfigMissing], 1)
  | some c =>
    if c.products = [] then ([Event.ensureDb, Event.printNoProducts], 1)
    else
      let r := runLoop env c.products
      (Event.ensureDb :: r.1 ++ (if r.2 then [] else [Event.printNoAlerts]), 0)

/-- Observation extracted from a trace event. -/
def getObs : Event → Option Obs
  | Event.recordObs o => some o
  | _ => none

/-- Events that inspect the status: the per-product printed lines. -/
def isStatusPrint : Event → Bool
  | Event.printErr _ _ _ => true
  | Event.printInfo _ _ _ _ => true
  | Event.printAlert _ _ => true
  | _ => false

/-- Fetch events. -/
def isFetch : Event → Bool
  | Event.fetchCall _ => true
  | _ => false

/-- Record (database insert) events. -/
def isRecord : Event → Bool
  | Event.recordObs _ => true
  | _ => false

/-- Configuration-error output events. -/
def isConfigError : Event → Bool
  | Event.printConfigMissing => true
  | Event.printNoProducts => true
  | _ => false

/-! ## Concrete test fixture (the end-to-end scenario of the spec) -/

/-- A fixed markup body. -/
def docA : List Char := ("page").toList

/-- Environment whose selector query returns the text `US$ 2.500,00`. -/
def envA : Env :=
  { fetch := fun _ => Except.ok docA
    select := fun _ _ => some (("US$ 2.500,00").toList) }

/-- One product with target 3000 (the alerting scenario: 2500 ≤ 3000). -/
def prodA : Product :=
  { name := some (("Widget").toList)
    url := ("http://shop/x").toList
    selector := ("#price").toList
    target_price := some 3000 }

/-- Configuration holding just `prodA`. -/
def cfgA : Cfg := { products := [prodA] }

/-! ## Helper lemmas about the pipeline -/

theorem fetch_price_some_iff (env : Env) (url sel : List Char) :
    (fetch_price env url sel).1.isSome ↔ (fetch_price env url sel).2 = Status.ok := by
  unfold fetch_price
  rcases hf : env.fetch url with e | body
  · simp
  · rcases hs : env.select body sel with _ | txt
    · simp [hs]
    · rcases hp : parse_price (stripWs txt) with _ | q <;> simp [hs, hp]

theorem alertP_iff (env : Env) (p : Product) :
    alertP env p = true ↔ ∃ q t, checkProduct env p = (some q, Status.ok) ∧
      p.target_price = some t ∧ q ≤ t := by
  unfold alertP
  rcases hcp : checkProduct env p with ⟨pr, st⟩
  rcases pr with _ | q <;> rcases hst : p.target_price with _ | t <;>
    cases st <;>
    simp [hcp, hst, Prod.mk.injEq, Option.some.injEq, Bool.and_eq_true,
      decide_eq_true_iff]

theorem runLoop_flag (env : Env) (ps : List Product) :
    (runLoop env ps).2 = ps.any (alertP env) := by
  induction ps with
  | nil => simp [runLoop]
  | cons p ps ih => simp [runLoop, ih]

/-! ## Claim theorems -/

/-- C1. The pair returned by `fetch_price` has a present price exactly
when the status is `ok`, and hence every observation built by the run
has a present price exactly when its status is `ok`. -/
theorem c1_price_iff_ok :
    (∀ (env : Env) (url sel : List Char),
      (fetch_price env url sel).1.isSome ↔ (fetch_price env url sel).2 = Status.ok) ∧
    (∀ (env : Env) (p : Product),
      (mkObs env p).price.isSome ↔ (mkObs env p).status = Status.ok) :=
  ⟨fun env url sel => fetch_price_some_iff env url sel,
   fun env p => by
    simpa [mkObs, checkProduct] using fetch_price_some_iff env p.url p.selector⟩

/-- C2. The aggregate alert flag of the product loop is the monotonic OR,
in list order, of the per-product alert conditions; it is true exactly
when some product's check ends `ok` with a present configured target and
price ≤ target, and false when no product alerts. -/
theorem c2_aggregate_alert_flag :
    ∀ (env : Env) (ps : List Product),
      (runLoop env ps).2 = ps.any (alertP env) ∧
      ((runLoop env ps).2 = true ↔ ∃ p ∈ ps, ∃ q t,
        checkProduct env p = (some q, Status.ok) ∧
        p.target_price = some t ∧ q ≤ t) := by
  intro env ps
  refine ⟨runLoop_flag env ps, ?_⟩
  rw [runLoop_flag env ps, List.any_eq_true]
  constructor
  · rintro ⟨p, hp, ha⟩
    exact ⟨p, hp, (alertP_iff env p).1 ha⟩
  · rintro ⟨p, hp, hex⟩
    exact ⟨p, hp, (alertP_iff env p).2 hex⟩

theorem productTrace_obs (env : Env) (p : Product) :
    (productTrace env p).filterMap getObs = [mkObs env p] := by
  unfold productTrace
  split
  · simp [getObs]
  · split <;> simp [getObs]

theorem runLoop_obs (env : Env) (ps : List Product) :
    (runLoop env ps).1.filterMap getObs = ps.map (mkObs env) := by
  induction ps with
  | nil => simp [runLoop]
  | cons p ps ih => simp [runLoop, List.filterMap_append, productTrace_obs, ih]

theorem productTrace_shape (env : Env) (p : Product) :
    ∃ rest, productTrace env p =
      Event.fetchCall p.url :: Event.recordObs (mkObs env p) :: rest ∧
      ∀ e ∈ rest, isStatusPrint e = true := by
  unfold productTrace
  refine ⟨_, rfl, ?_⟩
  split
  · simp [isStatusPrint]
  · split <;> simp [isStatusPrint]

theorem printNoAlerts_not_in_productTrace (env : Env) (p : Product) :
    Event.printNoAlerts ∉ productTrace env p := by
  unfold productTrace
  split
  · simp
  · split <;> simp

theorem printNoAlerts_not_in_runLoop (env : Env) (ps : List Product) :
    Event.printNoAlerts ∉ (runLoop env ps).1 := by
  induction ps with
  | nil => simp [runLoop]
  | cons p ps ih =>
    simp only [runLoop]
    intro h
    rcases List.mem_append.mp h with h1 | h1
    · exact printNoAlerts_not_in_productTrace env p h1
    · exact ih h1

theorem getLastD_append_single {α : Type} (l : List α) (a d : α) :
    (l ++ [a]).getLastD d = a := by
  induction l generalizing d with
  | nil => rfl
  | cons x xs ih => rw [List.cons_append, List.getLastD_cons, ih]

/-- C5. For every product of a non-empty configured list, the completed
run records exactly one observation (in list order, whatever the
status), and within each product's step the record event comes right
after the fetch and before every status-inspecting printed line. -/
theorem c5_exactly_one_observation :
    ∀ (env : Env) (c : Cfg), c.products ≠ [] →
      (run_once env (some c)).1.filterMap getObs = c.products.map (mkObs env) ∧
      ∀ p ∈ c.products, ∃ rest,
        productTrace env p =
          Event.fetchCall p.url :: Event.recordObs (mkObs env p) :: rest ∧
        ∀ e ∈ rest, isStatusPrint e = true := by
  intro env c hne
  constructor
  · simp only [run_once, if_neg hne]
    rcases hflag : (runLoop env c.products).2 with _ | _ <;>
      simp [hflag, List.filterMap_append, getObs, runLoop_obs]
  · intro p _
    exact productTrace_shape env p

/-- Witness for C5 at the concrete fixture. -/
theorem c5_witness :
    (run_once envA (some cfgA)).1.filterMap getObs = cfgA.products.map (mkObs envA) ∧
    ∀ p ∈ cfgA.products, ∃ rest,
      productTrace envA p =
        Event.fetchCall p.url :: Event.recordObs (mkObs envA p) :: rest ∧
      ∀ e ∈ rest, isStatusPrint e = true :=
  c5_exactly_one_observation envA cfgA (by decide)

/-- C6. A missing configuration or an empty product list makes the run
exit with a nonzero code, performing no fetch and recording no
observation: every emitted event is the idempotent database setup or a
configuration-error message. -/
theorem c6_fail_fast_on_config_error :
    ∀ (env : Env) (cfg : Option Cfg),
      (match cfg with | none => True | some c => c.products = []) →
      (run_once env cfg).2 ≠ 0 ∧
      ∀ e ∈ (run_once env cfg).1,
        isFetch e = false ∧ isRecord e = false ∧
        (e = Event.ensureDb ∨ isConfigError e = true) := by
  intro env cfg h
  rcases cfg with _ | c
  · refine ⟨by simp [run_once], ?_⟩
    intro e he
    simp only [run_once, List.mem_cons, List.not_mem_nil, or_false] at he
    rcases he with rfl | rfl
    · simp [isFetch, isRecord]
    · simp [isFetch, isRecord, isConfigError]
  · have hempty : c.products = [] := h
    refine ⟨by simp [run_once, hempty], ?_⟩
    intro e he
    simp only [run_once, if_pos hempty, List.mem_cons, List.not_mem_nil,
      or_false] at he
    rcases he with rfl | rfl
    · simp [isFetch, isRecord]
    · simp [isFetch, isRecord, isConfigError]

/-- Witness for C6 at the empty-product-list configuration. -/
theorem c6_witness :
    (run_once envA (some { products := [] })).2 ≠ 0 ∧
    ∀ e ∈ (run_once envA (some { products := [] })).1,
      isFetch e = false ∧ isRecord e = false ∧
      (e = Event.ensureDb ∨ isConfigError e = true) :=
  c6_fail_fast_on_config_error envA (some { products := [] }) (by decide)

/-- C9 (amended). A completed run over a non-empty product list exits
with code 0 and ends with the summary line `No alerts this run.` exactly
when no alert fired; when some alert fired, no run-level summary line is
printed at all (the per-product alert lines are the only alert output). -/
theorem c9_final_line :
    ∀ (env : Env) (c : Cfg), c.products ≠ [] →
      (run_once env (some c)).2 = 0 ∧
      ((runLoop env c.products).2 = false →
        (run_once env (some c)).1.getLastD Event.ensureDb = Event.printNoAlerts) ∧
      ((runLoop env c.products).2 = true →
        Event.printNoAlerts ∉ (run_once env (some c)).1) := by
  intro env c hne
  refine ⟨by simp [run_once, hne], ?_, ?_⟩
  · intro hflag
    simp only [run_once, if_neg hne, hflag, Bool.false_eq_true, if_false]
    exact getLastD_append_single _ _ _
  · intro hflag
    simp only [run_once, if_neg hne, hflag, if_true]
    simp [List.mem_cons, printNoAlerts_not_in_runLoop env c.products]

/-- Witness for C9 (amended) at the concrete fixture. -/
theorem c9_witness :
    (run_once envA (some cfgA)).2 = 0 ∧
    ((runLoop envA cfgA.products).2 = false →
      (run_once envA (some cfgA)).1.getLastD Event.ensureDb = Event.printNoAlerts) ∧
    ((runLoop envA cfgA.products).2 = true →
      Event.printNoAlerts ∉ (run_once envA (some cfgA)).1) :=
  c9_final_line envA cfgA (by decide)

/-- Counterexample to C9 as stated: the alerting fixture completes
(exit 0, one product), yet its output's final line is the per-product
alert line and the run-summary line `No alerts this run.` appears
nowhere, so no final line states whether an alert fired across the run. -/
theorem c9_counterexample :
    (run_once envA (some cfgA)).2 = 0 ∧ cfgA.products ≠ [] ∧
    Event.printNoAlerts ∉ (run_once envA (some cfgA)).1 ∧
    (run_once envA (some cfgA)).1.getLastD Event.ensureDb =
      Event.printAlert 2500 3000 := by
  decide

/-! ## Helper lemmas about the normalizer -/

theorem isWs_space : isWs ' ' = true := by decide

theorem delSpace_dropWhile (l : List Char) :
    delSpace (l.dropWhile isWs) = (delSpace l).dropWhile isWs := by
  induction l with
  | nil => rfl
  | cons c t ih =>
    by_cases hws : isWs c = true
    · rw [List.dropWhile_cons_of_pos hws, ih]
      by_cases hsp : c = ' '
      · subst hsp
        have h1 : delSpace (' ' :: t) = delSpace t := by
          simp [delSpace]
        rw [h1]
      · have h1 : delSpace (c :: t) = c :: delSpace t := by
          simp [delSpace, hsp]
        rw [h1, List.dropWhile_cons_of_pos hws]
    · have hsp : c ≠ ' ' := by
        rintro rfl
        exact hws isWs_space
      have h1 : delSpace (c :: t) = c :: delSpace t := by
        simp [delSpace, hsp]
      rw [List.dropWhile_cons_of_neg hws, h1, List.dropWhile_cons_of_neg hws]

theorem delSpace_reverse (l : List Char) :
    delSpace l.reverse = (delSpace l).reverse :=
  List.filter_reverse _ l

theorem delSpace_stripWs (l : List Char) :
    delSpace (stripWs l) = stripWs (delSpace l) := by
  unfold stripWs
  rw [delSpace_reverse, delSpace_dropWhile, delSpace_reverse, delSpace_dropWhile]

theorem delSpace_filter (p : Char → Bool) (l : List Char) :
    delSpace (l.filter p) = (delSpace l).filter p := by
  unfold delSpace
  rw [List.filter_filter, List.filter_filter]
  exact List.filter_congr fun c _ => Bool.and_comm _ _

theorem delSpace_idem (l : List Char) :
    delSpace (delSpace l) = delSpace l := by
  unfold delSpace
  rw [List.filter_filter]
  exact List.filter_congr fun c _ => Bool.and_self _

theorem cleanText_delSpace (s : List Char) :
    cleanText (delSpace s) = cleanText s :=
  calc delSpace (stripWs ((stripWs (delSpace s)).filter keepChar))
      = delSpace (stripWs ((delSpace (stripWs s)).filter keepChar)) := by
        rw [← delSpace_stripWs]
    _ = delSpace (stripWs (delSpace ((stripWs s).filter keepChar))) := by
        rw [delSpace_filter]
    _ = delSpace (delSpace (stripWs ((stripWs s).filter keepChar))) := by
        rw [← delSpace_stripWs ((stripWs s).filter keepChar)]
    _ = delSpace (stripWs ((stripWs s).filter keepChar)) := delSpace_idem _

/-- C7 (amended). The normalizer is invariant under removal of every
space character (U+0020), the only whitespace the cleaning stage deletes
internally; see the counterexample for other whitespace characters. -/
theorem c7_space_removal_invariant :
    ∀ s : List Char, parse_price (delSpace s) = parse_price s := by
  intro s
  unfold parse_price
  rw [cleanText_delSpace]

/-- Counterexample to C7 as stated: deleting every whitespace character
changes the result on `"1\t2"`. The internal tab survives the cleaning
stage (the character filter keeps whitespace and only spaces are
removed), so conversion fails, while the whitespace-free variant `"12"`
parses. -/
theorem c7_counterexample :
    ([ '1', '\t', '2' ] : List Char).filter (fun c => !isWs c) = [ '1', '2' ] ∧
    parse_price ([ '1', '\t', '2' ]) = none ∧
    parse_price ([ '1', '2' ]) = some (12 : ℚ) := by
  decide

theorem isWs_of_digit_or_dot {c : Char} (h : c.isDigit = true ∨ c = '.') :
    isWs c = false := by
  cases hws : isWs c
  · rfl
  · exfalso
    unfold isWs at hws
    simp only [Bool.or_eq_true, beq_iff_eq] at hws
    rcases h with hd | rfl
    · rcases hws with (((((rfl | rfl) | rfl) | rfl) | rfl) | rfl) | rfl <;>
        simp at hd
    · rcases hws with (((((h | h) | h) | h) | h) | h) | h <;>
        exact absurd h (by decide)

theorem dropWhile_eq_self_of_all {p : Char → Bool} {l : List Char}
    (h : ∀ c ∈ l, p c = false) : l.dropWhile p = l := by
  cases l with
  | nil => rfl
  | cons x xs =>
    have hx : ¬ p x = true := by
      simp [h x (List.mem_cons_self x xs)]
    exact List.dropWhile_cons_of_neg hx

theorem stripWs_eq_self {l : List Char} (h : ∀ c ∈ l, isWs c = false) :
    stripWs l = l := by
  unfold stripWs
  rw [dropWhile_eq_self_of_all h, dropWhile_eq_self_of_all, List.reverse_reverse]
  intro c hc
  exact h c (List.mem_reverse.mp hc)

/-- C8. On a string that is already in normalized decimal form (digits
with at most one decimal point and at least one digit — in particular on
the canonical rendering of any value the normalizer can return), the
normalizer succeeds and returns exactly the value that string denotes. -/
theorem c8_idempotent_on_normalized :
    ∀ t : List Char, t.all (fun c => c.isDigit || c == '.') = true →
      t.count '.' ≤ 1 → t.any (fun c => c.isDigit) = true →
      parse_price t = some (floatVal t) := by
  intro t hall hcount hdig
  have hchar : ∀ c ∈ t, c.isDigit = true ∨ c = '.' := by
    intro c hc
    have := (List.all_eq_true.mp hall) c hc
    simpa using this
  have hnows : ∀ c ∈ t, isWs c = false := fun c hc =>
    isWs_of_digit_or_dot (hchar c hc)
  have hno_comma : ',' ∉ t := by
    intro hmem
    rcases hchar ',' hmem with h | h
    · exact absurd h (by decide)
    · exact absurd h (by decide)
  have hno_space : ∀ c ∈ t, (c != ' ') = true := by
    intro c hc
    rcases hchar c hc with h | rfl
    · have : c ≠ ' ' := by
        rintro rfl
        exact absurd h (by decide)
      simpa using this
    · decide
  have hkeep : ∀ c ∈ t, keepChar c = true := by
    intro c hc
    rcases hchar c hc with h | rfl
    · simp [keepChar, h]
    · simp [keepChar]
  have hclean : cleanText t = t := by
    unfold cleanText delSpace
    rw [stripWs_eq_self hnows, List.filter_eq_self.mpr hkeep,
      stripWs_eq_self hnows, List.filter_eq_self.mpr hno_space]
  have hdis : disambiguate t = t := by
    have hA : ¬ (',' ∈ t ∧ '.' ∈ t) := fun h => hno_comma h.1
    have hB : ¬ (',' ∈ t ∧ '.' ∉ t) := fun h => hno_comma h.1
    have hlt : ¬ 1 < t.count '.' := by omega
    unfold disambiguate
    rw [if_neg hA, if_neg hB]
    by_cases hmem : '.' ∈ t
    · rw [if_pos hmem, if_neg hlt]
    · rw [if_neg hmem]
  have hvalid : floatValid t = true := by
    have hne : t ≠ [] := by
      rcases List.any_eq_true.mp hdig with ⟨c, hc, _⟩
      exact List.ne_nil_of_mem hc
    unfold floatValid
    simp [hall, hdig, hcount, hne]
  unfold parse_price pyFloat
  rw [hclean, hdis, stripWs_eq_self hnows, if_pos hvalid]

/-- Witness for C8 at the canonical rendering `"1234.56"`. -/
theorem c8_witness :
    parse_price (("1234.56").toList) = some (floatVal (("1234.56").toList)) ∧
    floatVal (("1234.56").toList) = mkRat 123456 100 :=
  ⟨c8_idempotent_on_normalized (("1234.56").toList) (by decide) (by decide)
    (by decide), by decide⟩

theorem floatVal_nonneg (t : List Char) : 0 ≤ floatVal t := by
  unfold floatVal
  rw [Rat.mkRat_eq_div]
  positivity

/-- C10. Every value the normalizer returns is nonnegative (the cleaning
stage deletes sign characters along with currency symbols), and the
negatively-signed input `"-12.50"` normalizes to the positive 12.5. -/
theorem c10_nonnegative :
    (∀ (s : List Char) (q : ℚ), parse_price s = some q → 0 ≤ q) ∧
    parse_price (("-12.50").toList) = some (mkRat 25 2) := by
  constructor
  · intro s q h
    unfold parse_price pyFloat at h
    by_cases hv : floatValid (stripWs (disambiguate (cleanText s))) = true
    · rw [if_pos hv] at h
      obtain rfl : floatVal (stripWs (disambiguate (cleanText s))) = q :=
        Option.some.injEq _ _ ▸ h
      exact floatVal_nonneg _
    · rw [if_neg hv] at h
      cases h
  · decide

/-- Witness for C10 at the signed input `"-12.50"`. -/
theorem c10_witness : 0 ≤ mkRat 25 2 :=
  c10_nonnegative.1 (("-12.50").toList) (mkRat 25 2) c10_nonnegative.2

/-! ## Decimal-separator disambiguation: helper lemmas -/

/-- A decimal/thousands separator character. -/
def isSep (c : Char) : Bool := c == ',' || c == '.'

/-- From the spec's words: the separator occurring last in the string
(the decimal point when both separators occur; a placeholder blank when
none occurs). -/
def specDecimalSep (s : List Char) : Char := (s.filter isSep).getLastD ' '

/-- From the spec's words: the other separator (the thousands separator
when both separators occur). -/
def specThousandsSep (s : List Char) : Char :=
  if specDecimalSep s == ',' then '.' else ','

theorem rfind_cons (c x : Char) (t : List Char) :
    rfind c (x :: t) =
      if 0 ≤ rfind c t then rfind c t + 1 else if x == c then 0 else -1 := rfl

theorem rfind_eq_neg_of_not_mem {c : Char} {l : List Char} (h : c ∉ l) :
    rfind c l = -1 := by
  induction l with
  | nil => rfl
  | cons x t ih =>
    have hcx : c ≠ x := fun hh => h (hh ▸ List.mem_cons_self x t)
    have hct : c ∉ t := fun hh => h (List.mem_cons_of_mem x hh)
    have hx : (x == c) = false := beq_eq_false_iff_ne.mpr (Ne.symm hcx)
    rw [rfind_cons, ih hct, if_neg (by norm_num), hx, if_neg (by simp)]

theorem rfind_nonneg_of_mem {c : Char} {l : List Char} (h : c ∈ l) :
    0 ≤ rfind c l := by
  induction l with
  | nil => cases h
  | cons x t ih =>
    by_cases hct : c ∈ t
    · rw [rfind_cons, if_pos (ih hct)]
      have := ih hct
      omega
    · have hx : c = x := by
        rcases List.mem_cons.mp h with h1 | h1
        · exact h1
        · exact absurd h1 hct
      subst hx
      rw [rfind_cons, rfind_eq_neg_of_not_mem hct, if_neg (by norm_num),
        if_pos (by simp)]

theorem rfind_cons_of_mem (x : Char) {c : Char} {t : List Char} (h : c ∈ t) :
    rfind c (x :: t) = rfind c t + 1 := by
  rw [rfind_cons, if_pos (rfind_nonneg_of_mem h)]

theorem rfind_cons_self_of_not_mem {c : Char} {t : List Char} (h : c ∉ t) :
    rfind c (c :: t) = 0 := by
  rw [rfind_cons, rfind_eq_neg_of_not_mem h, if_neg (by norm_num),
    if_pos (by simp)]

theorem getLastD_irrel {α : Type} {l : List α} (h : l ≠ []) (a b : α) :
    l.getLastD a = l.getLastD b := by
  cases l with
  | nil => exact absurd rfl h
  | cons x t => rw [List.getLastD_cons, List.getLastD_cons]

theorem getLastD_mem {α : Type} {l : List α} (h : l ≠ []) (d : α) :
    l.getLastD d ∈ l := by
  induction l generalizing d with
  | nil => exact absurd rfl h
  | cons x t ih =>
    rw [List.getLastD_cons]
    cases t with
    | nil => simp [List.getLastD]
    | cons y u => exact List.mem_cons_of_mem x (ih (by simp) x)

theorem getLastD_all_eq {α : Type} {l : List α} {z : α} (h : l ≠ [])
    (hall : ∀ a ∈ l, a = z) (d : α) : l.getLastD d = z :=
  hall _ (getLastD_mem h d)

theorem filter_isSep_ne_nil_of_mem {s : List Char} {c : Char}
    (hc : isSep c = true) (h : c ∈ s) : s.filter isSep ≠ [] :=
  List.ne_nil_of_mem (List.mem_filter.mpr ⟨h, hc⟩)

theorem specDecimalSep_cons_of_ne_nil (x : Char) {t : List Char}
    (h : t.filter isSep ≠ []) :
    specDecimalSep (x :: t) = specDecimalSep t := by
  unfold specDecimalSep
  by_cases hx : isSep x = true
  · rw [List.filter_cons_of_pos hx, List.getLastD_cons]
    exact getLastD_irrel h x ' '
  · rw [List.filter_cons_of_neg (by simp [hx])]

theorem mem_isSep_or {a : Char} {l : List Char} (ha : a ∈ l.filter isSep) :
    a = ',' ∨ a = '.' := by
  have hs := (List.mem_filter.mp ha).2
  simp only [isSep, Bool.or_eq_true, beq_iff_eq] at hs
  exact hs

theorem rfind_comparison : ∀ {s : List Char}, ',' ∈ s → '.' ∈ s ->
    (rfind '.' s < rfind ',' s ↔ specDecimalSep s = ',') := by
  intro s
  induction s with
  | nil => intro hc _; cases hc
  | cons x t ih =>
    intro hc hd
    by_cases hct : ',' ∈ t <;> by_cases hdt : '.' ∈ t
    · rw [rfind_cons_of_mem x hct, rfind_cons_of_mem x hdt,
        specDecimalSep_cons_of_ne_nil x
          (filter_isSep_ne_nil_of_mem (by decide) hct)]
      constructor
      · intro h
        exact (ih hct hdt).1 (by omega)
      · intro h
        have := (ih hct hdt).2 h
        omega
    · have hx : x = '.' := by
        rcases List.mem_cons.mp hd with h1 | h1
        · exact h1.symm
        · exact absurd h1 hdt
      subst hx
      rw [rfind_cons_of_mem _ hct, rfind_cons_self_of_not_mem hdt]
      have hlhs : 0 < rfind ',' t + 1 := by
        have := rfind_nonneg_of_mem hct
        omega
      have hrhs : specDecimalSep ('.' :: t) = ',' := by
        unfold specDecimalSep
        rw [List.filter_cons_of_pos (by decide), List.getLastD_cons]
        apply getLastD_all_eq (filter_isSep_ne_nil_of_mem (by decide) hct)
        intro a ha
        rcases mem_isSep_or ha with h | h
        · exact h
        · subst h
          exact absurd (List.mem_filter.mp ha).1 hdt
      exact iff_of_true hlhs hrhs
    · have hx : x = ',' := by
        rcases List.mem_cons.mp hc with h1 | h1
        · exact h1.symm
        · exact absurd h1 hct
      subst hx
      rw [rfind_cons_of_mem _ hdt, rfind_cons_self_of_not_mem hct]
      have hlhs : ¬ (rfind '.' t + 1 < 0) := by
        have := rfind_nonneg_of_mem hdt
        omega
      have hrhs : specDecimalSep (',' :: t) ≠ ',' := by
        unfold specDecimalSep
        rw [List.filter_cons_of_pos (by decide), List.getLastD_cons]
        have hdot : (t.filter isSep).getLastD ',' = '.' := by
          apply getLastD_all_eq (filter_isSep_ne_nil_of_mem (by decide) hdt)
          intro a ha
          rcases mem_isSep_or ha with h | h
          · subst h
            exact absurd (List.mem_filter.mp ha).1 hct
          · exact h
        rw [hdot]
        decide
      exact iff_of_false hlhs hrhs
    · have hx1 : x = ',' := by
        rcases List.mem_cons.mp hc with h1 | h1
        · exact h1.symm
        · exact absurd h1 hct
      have hx2 : x = '.' := by
        rcases List.mem_cons.mp hd with h1 | h1
        · exact h1.symm
        · exact absurd h1 hdt
      rw [hx1] at hx2
      exact absurd hx2 (by decide)

theorem map_dot_id (l : List Char) :
    l.map (fun c => if c == '.' then '.' else c) = l := by
  induction l with
  | nil => rfl
  | cons c t ih =>
    rw [List.map_cons, ih]
    congr 1
    by_cases h : (c == '.') = true
    · rw [if_pos h]
      exact (eq_of_beq h).symm
    · rw [if_neg h]

theorem specDecimalSep_or {s : List Char} (hc : ',' ∈ s) :
    specDecimalSep s = ',' ∨ specDecimalSep s = '.' := by
  have hne := filter_isSep_ne_nil_of_mem (show isSep ',' = true by decide) hc
  exact mem_isSep_or (getLastD_mem hne ' ')

/-- C3. When both separators occur in the cleaned string, the separator
occurring last (in the sense of Python `rfind`) is the decimal point:
every occurrence of the other separator is deleted and the decimal
separator is rewritten to `.`; in particular `normalize("$1,234.56")` and
`normalize("1.234,56")` both yield 1234.56. -/
theorem c3_both_separators :
    (∀ s : List Char, ',' ∈ s → '.' ∈ s ->
      disambiguate s = (s.filter (fun c => c != specThousandsSep s)).map
        (fun c => if c == specDecimalSep s then '.' else c)) ∧
    parse_price (("$1,234.56").toList) = some (mkRat 123456 100) ∧
    parse_price (("1.234,56").toList) = some (mkRat 123456 100) := by
  refine ⟨?_, by decide, by decide⟩
  intro s hc hd
  unfold disambiguate
  rw [if_pos ⟨hc, hd⟩]
  by_cases hcmp : rfind '.' s < rfind ',' s
  · have hdec : specDecimalSep s = ',' := (rfind_comparison hc hd).1 hcmp
    have hth : specThousandsSep s = '.' := by
      unfold specThousandsSep
      rw [hdec]
      decide
    rw [if_pos hcmp, hdec, hth]
    rfl
  · have hdec : specDecimalSep s = '.' := by
      rcases specDecimalSep_or hc with h | h
      · exact absurd ((rfind_comparison hc hd).2 h) hcmp
      · exact h
    have hth : specThousandsSep s = ',' := by
      unfold specThousandsSep
      rw [hdec]
      rfl
    rw [if_neg hcmp, hdec, hth]
    exact (map_dot_id _).symm

/-- Witness for C3 at the string `1,2.3`. -/
theorem c3_witness :
    disambiguate ([ '1', ',', '2', '.', '3' ]) =
      (([ '1', ',', '2', '.', '3' ] : List Char).filter
        (fun c => c != specThousandsSep ([ '1', ',', '2', '.', '3' ]))).map
        (fun c => if c == specDecimalSep ([ '1', ',', '2', '.', '3' ])
          then '.' else c) :=
  c3_both_separators.1 ([ '1', ',', '2', '.', '3' ]) (by decide) (by decide)

/-! ## Dots-only branch: helper lemmas -/

theorem splitOnSep_ne_nil (sep : Char) (l : List Char) :
    splitOnSep sep l ≠ [] := by
  cases l with
  | nil => simp [splitOnSep]
  | cons c t =>
    simp only [splitOnSep]
    split <;> simp

theorem not_mem_splitOnSep (sep : Char) (l : List Char) :
    ∀ part ∈ splitOnSep sep l, sep ∉ part := by
  induction l with
  | nil =>
    intro part hp
    simp only [splitOnSep, List.mem_singleton] at hp
    subst hp
    simp
  | cons c t ih =>
    intro part hp
    simp only [splitOnSep] at hp
    by_cases h : (c == sep) = true
    · rw [if_pos h] at hp
      rcases List.mem_cons.mp hp with rfl | hp2
      · simp
      · exact ih part hp2
    · rw [if_neg h] at hp
      rcases List.mem_cons.mp hp with rfl | hp2
      · intro hmem
        rcases List.mem_cons.mp hmem with heq | hmem2
        · rw [heq] at h
          exact h (by simp)
        · have hne := splitOnSep_ne_nil sep t
          have hhead : (splitOnSep sep t).headD [] ∈ splitOnSep sep t := by
            cases hsp : splitOnSep sep t with
            | nil => exact absurd hsp hne
            | cons a as => simp
          exact ih _ hhead hmem2
      · exact ih part (List.mem_of_mem_tail hp2)

theorem count_joinButLast_dot (s : List Char) :
    (joinButLast '.' s).count '.' = 1 := by
  unfold joinButLast
  rw [List.count_append]
  have h1 : List.count '.' (splitOnSep '.' s).dropLast.flatten = 0 := by
    rw [List.count_eq_zero]
    intro hmem
    rcases List.mem_flatten.mp hmem with ⟨part, hp, hin⟩
    exact not_mem_splitOnSep '.' s part ((List.dropLast_sublist _).subset hp) hin
  have h2 : List.count '.' ((splitOnSep '.' s).getLastD []) = 0 := by
    rw [List.count_eq_zero]
    intro hmem
    exact not_mem_splitOnSep '.' s _
      (getLastD_mem (splitOnSep_ne_nil '.' s) []) hmem
  rw [h1, List.count_cons_self, h2]

/-- Counterexample to C4 as stated: on `"1.234.567"` the normalizer
returns 1234.567 (the last dot becomes the decimal point), not the
integer 1234567 the claim requires. -/
theorem c4_counterexample :
    parse_price (("1.234.567").toList) ≠ some (1234567 : ℚ) := by decide

/-- C4 (amended). When only `.` occurs, more than once, all but the last
occurrence are deleted as thousands separators and the last is kept as
the decimal point (so the result has exactly one dot); in particular
`normalize("1.234.567")` = 1234.567, not 1234567. -/
theorem c4_dots_as_thousands :
    (∀ s : List Char, ',' ∉ s → 1 < s.count '.' ->
      disambiguate s = joinButLast '.' s ∧
      (joinButLast '.' s).count '.' = 1) ∧
    parse_price (("1.234.567").toList) = some (mkRat 1234567 1000) ∧
    joinButLast '.' (("1.234.567").toList) = ("1234.567").toList := by
  refine ⟨?_, by decide, by decide⟩
  intro s hnc hcount
  refine ⟨?_, count_joinButLast_dot s⟩
  have hmem : '.' ∈ s := List.count_pos_iff.mp (by omega)
  have hA : ¬ (',' ∈ s ∧ '.' ∈ s) := fun h => hnc h.1
  have hB : ¬ (',' ∈ s ∧ '.' ∉ s) := fun h => hnc h.1
  unfold disambiguate
  rw [if_neg hA, if_neg hB, if_pos hmem, if_pos hcount]

/-- Witness for C4 (amended) at `"1.234.567"`. -/
theorem c4_witness :
    disambiguate (("1.234.567").toList) =
      joinButLast '.' (("1.234.567").toList) ∧
    (joinButLast '.' (("1.234.567").toList)).count '.' = 1 :=
  c4_dots_as_thousands.1 (("1.234.567").toList) (by decide) (by decide)

end PriceWatcher
